import Mathlib

/-!
# Verification of the Byzantine agreement engine (`src/general.cc`)

This file gives a shallow embedding of the agreement engine of the
repository: the wire codec (`ByzantineMsgFromBuf`, `RoundOfAck`, the buffer
construction of `SendMessage` and `SendAckForRound`), the message validator
(`Lieutenant::ValidMessage`), the round bookkeeping (`MessagesForRound`,
`Lieutenant::RoundComplete`), the listen-loop callback of
`Lieutenant::Decide`, the round-advance logic (`InitNewRound`,
`MoveToNewRoundOrStop`, `HandleRoundTimeout`) and the decision function
(`Lieutenant::DecideOrder`, `Commander::Decide`).

Machine integers are modelled as `ℕ`.  Where a definition depends on code
that is not part of `src/` (the struct layout of `msg::ByzantineMessage`
and `msg::Ack`, the constants `kByzantineMessageType` and `kAckType`, and
the helpers `FirstRound`/`LastRound`/`IncrementRound` declared in the
missing header), the definition carries a doc comment starting with
`Modelled from the spec:` and follows the specification's words.
-/

namespace Generals

/-- `msg::Order` is a C++ enum backed by a machine integer; the decoder
`ByzantineMsgFromBuf` casts an arbitrary 32-bit value into it, so orders are
modelled as plain naturals. Modelled from the spec: the concrete enum values
(`0 = RETREAT`, `1 = ATTACK`) are not in `src/`. -/
def RETREAT : ℕ := 0

/-- Modelled from the spec: `ATTACK` is the other inhabitant of `msg::Order`,
encoded as `1` on the wire. -/
def ATTACK : ℕ := 1

/-- `msg::Message`: the decoded protocol-level Relay message
(`round`, `order`, relay path `ids`). -/
structure Message where
  round : ℕ
  order : ℕ
  ids : List ℕ
deriving DecidableEq, Repr

/-- `net::Address`: a hostname/port pair.  The validator compares only the
hostname (`src/general.cc:259`). -/
structure Address where
  hostname : String
  port : ℕ
deriving DecidableEq, Repr

/-! ## Wire codec

The frame layouts come from the spec (§6), since `msg.h` is not part of
`src/`:
Relay = `[u32 type][u32 size][u32 round][u32 order][u32 id]×len`, header
16 bytes; Ack = `[u32 type][u32 size][u32 round]`, 12 bytes; all fields in
network (big-endian) byte order.  Buffers are lists of bytes. -/

/-- Modelled from the spec: `sizeof(msg::ByzantineMessage)` — the fixed
Relay header, four 32-bit fields = 16 bytes. -/
def byzantineMessageSize : ℕ := 16

/-- Modelled from the spec: `sizeof(msg::Ack)` — three 32-bit fields =
12 bytes. -/
def ackSize : ℕ := 12

/-- Modelled from the spec: the distinct `type` constant `K_REL` for Relay
frames; its concrete value is not in `src/` and is never inspected on
decode. -/
def kByzantineMessageType : ℕ := 1

/-- Modelled from the spec: the distinct `type` constant `K_ACK` for Ack
frames. -/
def kAckType : ℕ := 2

/-- `ntohl` applied to the four bytes of `buf` starting at offset `off`:
reads a big-endian (network byte order) 32-bit value as the host value.
Out-of-range reads yield byte 0, mirroring the zeroed send buffer. -/
def ntohl (buf : List ℕ) (off : ℕ) : ℕ :=
  buf.getD off 0 * 16777216 + buf.getD (off + 1) 0 * 65536 +
    buf.getD (off + 2) 0 * 256 + buf.getD (off + 3) 0

/-- `htonl`: the four big-endian bytes of a 32-bit value (stored values are
reduced mod 2^32 bytewise, as the C++ store of a `uint32_t` does). -/
def htonlBytes (x : ℕ) : List ℕ :=
  [x / 16777216 % 256, x / 65536 % 256, x / 256 % 256, x % 256]

/-- `ByzantineMsgFromBuf` (`src/general.cc:10-30`): decode a Relay frame
from a buffer of `n` bytes.  Fails only when `n < sizeof(ByzantineMessage)`;
the `ids` tail has `(n - header) / 4` entries (integer division). -/
def ByzantineMsgFromBuf (buf : List ℕ) : Option Message :=
  if buf.length < byzantineMessageSize then
    none
  else
    some
      { round := ntohl buf 8
        order := ntohl buf 12
        ids := (List.range ((buf.length - byzantineMessageSize) / 4)).map
          (fun i => ntohl buf (byzantineMessageSize + 4 * i)) }

/-- `RoundOfAck` (`src/general.cc:32-40`): decode an Ack; fails unless the
buffer is exactly `sizeof(msg::Ack)` bytes; returns its `round` field. -/
def RoundOfAck (buf : List ℕ) : Option ℕ :=
  if buf.length ≠ ackSize then
    none
  else
    some (ntohl buf 8)

/-- The byte buffer that `SendMessage` (`src/general.cc:42-62`) constructs
and hands to the UDP client: Relay header (type, size, round, order) followed
by the ids, all in network byte order. -/
def SendMessage (msg : Message) : List ℕ :=
  htonlBytes kByzantineMessageType ++
    htonlBytes (byzantineMessageSize + 4 * msg.ids.length) ++
    htonlBytes msg.round ++ htonlBytes msg.order ++
    (msg.ids.map htonlBytes).flatten

/-- The byte buffer that `SendAckForRound` (`src/general.cc:75-83`)
constructs: Ack header with the given round. -/
def SendAckForRound (round : ℕ) : List ℕ :=
  htonlBytes kAckType ++ htonlBytes ackSize ++ htonlBytes round

/-! ## Round state and the Lieutenant's listen-loop callback -/

/-- `MessagesForRound` (`src/general.cc:5-8`): the expected number of
distinct relay paths in a round.  The `size_t` subtraction is modelled as
truncated subtraction on `ℕ`; the two agree whenever `round < process_num`,
which holds at every call site of a run (`round_ ≤ m < process_num`). -/
def MessagesForRound (process_num : ℕ) : ℕ → ℕ
  | 0 => 1
  | round + 1 => (process_num - 1 - (round + 1)) * MessagesForRound process_num round

/-- `udp::ServerAction`: what a listen-loop callback tells the server. -/
inductive ServerAction
  | Continue
  | Stop
deriving DecidableEq, Repr

/-- The mutable state of a `Lieutenant` (fields used by `src/general.cc`;
the class itself is declared in the header, which is not under `src/`).
`num_rounds_` is modelled from the spec: total rounds = m + 1. -/
structure Lieutenant where
  id_ : ℕ
  processes_ : List Address
  num_rounds_ : ℕ
  round_ : ℕ
  orders_seen_ : Finset ℕ
  msgs_this_round_ : Finset Message
  ids_this_round_ : Finset (List ℕ)
deriving DecidableEq

/-- Modelled from the spec: `FirstRound()` — rounds are 0-based, so the
first round is round 0. -/
def FirstRound (st : Lieutenant) : Bool :=
  st.round_ = 0

/-- Modelled from the spec: `LastRound()` — the run executes rounds
`0 .. num_rounds_ - 1`, so the last round is `num_rounds_ - 1`. -/
def LastRound (st : Lieutenant) : Bool :=
  st.round_ + 1 = st.num_rounds_

/-- Modelled from the spec: `IncrementRound()` — advance `round_` by one. -/
def IncrementRound (st : Lieutenant) : Lieutenant :=
  { st with round_ := st.round_ + 1 }

/-- `Lieutenant::ValidMessage` (`src/general.cc:226-263`): the pure message
validator, with the six early-return rejections of the source in order.
The duplicate check mirrors `idset.size() < msg.ids.size()` for the
`std::set` of ids via `List.dedup`.  `msg.round + 1` is `unsigned int`
arithmetic in the source; its wrap at `2^32 - 1` is not modelled because a
message with that round is rejected by the first clause for every
reachable `round_` (and the C++ would then index an empty vector). -/
def ValidMessage (st : Lieutenant) (msg : Message) (fromA : Address) : Bool :=
  if msg.round ≠ st.round_ then false
  else if msg.round + 1 ≠ msg.ids.length then false
  else if msg.ids.headI ≠ 0 then false
  else if msg.ids.any
      (fun id => decide (st.processes_.length ≤ id) || decide (id = st.id_)) then false
  else if msg.ids.dedup.length < msg.ids.length then false
  else if (st.processes_.getD (msg.ids.getLastD 0) ⟨"", 0⟩).hostname ≠ fromA.hostname
    then false
  else true

/-- `Lieutenant::DecideOrder` (`src/general.cc:142-147`): ATTACK iff
`orders_seen_` has exactly one element and it is ATTACK
(`count(ATTACK) == 1` on a `std::set` is membership). -/
def DecideOrder (st : Lieutenant) : ℕ :=
  if st.orders_seen_.card = 1 ∧ ATTACK ∈ st.orders_seen_ then ATTACK else RETREAT

/-- `Lieutenant::RoundComplete` (`src/general.cc:149-151`). -/
def RoundComplete (st : Lieutenant) : Bool :=
  st.ids_this_round_.card = MessagesForRound st.processes_.length st.round_

/-- `Lieutenant::InitNewRound` (`src/general.cc:183-224`), state effect:
increment the round, throw `std::logic_error` (modelled as `none`) if some
retained message is not from the round just finished, and clear
`ids_this_round_` and `msgs_this_round_`.  The relay fan-out (lines
187-220) only performs I/O. -/
def InitNewRound (st : Lieutenant) : Option Lieutenant :=
  let st' := IncrementRound st
  if ∃ m ∈ st.msgs_this_round_, m.round ≠ st'.round_ - 1 then none
  else some { st' with ids_this_round_ := ∅, msgs_this_round_ := ∅ }

/-- `Lieutenant::MoveToNewRoundOrStop` (`src/general.cc:153-161`). -/
def MoveToNewRoundOrStop (st : Lieutenant) : Option (Lieutenant × ServerAction) :=
  if LastRound st then some (st, ServerAction.Stop)
  else (InitNewRound st).map (fun st' => (st', ServerAction.Continue))

/-- `Lieutenant::HandleRoundTimeout` (`src/general.cc:168-176`). -/
def HandleRoundTimeout (st : Lieutenant) : Option (Lieutenant × ServerAction) :=
  if FirstRound st then some (st, ServerAction.Continue)
  else MoveToNewRoundOrStop st

/-- The first-round acceptance branch of the `on_message` callback
(`src/general.cc:115-121`): accept at most one message, guarded by
`orders_seen_.size() == 0`; the pair's second component is `newRound`. -/
def acceptRound0 (st : Lieutenant) (msg : Message) : Lieutenant × Bool :=
  if st.orders_seen_.card = 0 then
    ({ st with
        orders_seen_ := insert msg.order st.orders_seen_
        msgs_this_round_ := insert msg st.msgs_this_round_ }, true)
  else (st, false)

/-- The non-first-round acceptance branch (`src/general.cc:122-129`):
deduplicate by path, insert, and check `RoundComplete` on the updated
state. -/
def acceptLater (st : Lieutenant) (msg : Message) : Lieutenant × Bool :=
  if msg.ids ∈ st.ids_this_round_ then (st, false)
  else
    let st' := { st with
      ids_this_round_ := insert msg.ids st.ids_this_round_
      msgs_this_round_ := insert msg st.msgs_this_round_
      orders_seen_ := insert msg.order st.orders_seen_ }
    (st', RoundComplete st')

/-- The result of one invocation of the `on_message` callback: the updated
state, the returned `ServerAction`, and whether an Ack was emitted
(`SendAckForRound`, `src/general.cc:112`). -/
structure StepResult where
  st : Lieutenant
  action : ServerAction
  ack : Bool
deriving DecidableEq

/-- The `on_message` callback of `Lieutenant::Decide`
(`src/general.cc:102-135`): decode, validate, ack, accept, and advance the
round when complete.  `none` models the `std::logic_error` throw inside
`InitNewRound`. -/
def onMessage (st : Lieutenant) (buf : List ℕ) (fromA : Address) :
    Option StepResult :=
  match ByzantineMsgFromBuf buf with
  | none => some ⟨st, ServerAction.Continue, false⟩
  | some msg =>
    if ValidMessage st msg fromA = false then some ⟨st, ServerAction.Continue, false⟩
    else
      let p := if FirstRound st then acceptRound0 st msg else acceptLater st msg
      if p.2 then (MoveToNewRoundOrStop p.1).map (fun q => ⟨q.1, q.2, true⟩)
      else some ⟨p.1, ServerAction.Continue, true⟩

/-- A Lieutenant's state at startup: round 0, all sets empty. -/
def initState (id : ℕ) (processes : List Address) (num_rounds : ℕ) : Lieutenant :=
  ⟨id, processes, num_rounds, 0, ∅, ∅, ∅⟩

/-- States of a Lieutenant observable between callbacks while the listen
loop is still running: the initial state, and the result of any
`on_message` or `on_timeout` callback that returned `Continue`. -/
inductive Reachable (id : ℕ) (procs : List Address) (nr : ℕ) : Lieutenant → Prop
  | init : Reachable id procs nr (initState id procs nr)
  | msg {st st' : Lieutenant} {buf : List ℕ} {fromA : Address} {ack : Bool} :
      Reachable id procs nr st →
      onMessage st buf fromA = some ⟨st', ServerAction.Continue, ack⟩ →
      Reachable id procs nr st'
  | timeout {st st' : Lieutenant} :
      Reachable id procs nr st →
      HandleRoundTimeout st = some (st', ServerAction.Continue) →
      Reachable id procs nr st'

/-- The `Commander`'s state (fields used by `src/general.cc:85-97`). -/
structure Commander where
  id_ : ℕ
  processes_ : List Address
  round_ : ℕ
  order_ : ℕ

/-- The message `Commander::Decide` sends every Lieutenant
(`src/general.cc:88`): `{round_, order_, {0}}`. -/
def commanderMessage (c : Commander) : Message :=
  ⟨c.round_, c.order_, [0]⟩

/-- `Commander::Decide` (`src/general.cc:85-97`): fan out the proposal and
return it; the sends have no effect on the Commander's state. -/
def Commander.Decide (c : Commander) : ℕ :=
  c.order_

/-! ## The Round State invariant (claim C5) -/

/-- The inductive invariant of the Round State between callbacks: retained
messages are from the current round, `ids_this_round_` is exactly the image
of the retained messages under their paths, paths identify retained
messages uniquely, and in round 0 nothing is retained between callbacks
(accepting the Commander's message advances the round within the same
callback). -/
def StateInv (st : Lieutenant) : Prop :=
  (∀ m ∈ st.msgs_this_round_, m.round = st.round_) ∧
  st.ids_this_round_ = st.msgs_this_round_.image Message.ids ∧
  (∀ m1 ∈ st.msgs_this_round_, ∀ m2 ∈ st.msgs_this_round_,
    m1.ids = m2.ids → m1 = m2) ∧
  (st.round_ = 0 → st.msgs_this_round_ = ∅)

/-! ## Synchronous run model for the agreement property (claim C1)

Modelled from the spec: the run semantics below (synchronous rounds,
loss-free delivery between correct processes, every correct Lieutenant
completing each round) is the fault-free-network execution of §4.5, §5 and
the scenarios S1-S4; the UDP transport, timeouts and threads are not part
of `src/`.  Per-message processing is taken from the source: acceptance is
the validator `ValidMessage`, relaying follows `InitNewRound`
(`src/general.cc:194-206`: set `round` to the new round, append own id,
send only to processes not on the path), and the decision is
`DecideOrder`. -/

/-- A synchronous run: the participant table, the fault bound `m` (total
rounds `m + 1`), which processes are correct, the order the Commander sends
each Lieutenant in round 0 (`co`; a Byzantine Commander may vary it), and
for each later round the `(sender, message)` pairs that Byzantine
processes deliver. -/
structure SyncRun where
  processes : List Address
  m : ℕ
  correct : ℕ → Bool
  co : ℕ → ℕ
  byz : ℕ → ℕ → Finset (ℕ × Message)

namespace SyncRun

/-- Number of processes. -/
def n (run : SyncRun) : ℕ := run.processes.length

/-- The Lieutenant-state fields the validator consults at process `i` in
round `k`. -/
def lstate (run : SyncRun) (i k : ℕ) : Lieutenant :=
  ⟨i, run.processes, run.m + 1, k, ∅, ∅, ∅⟩

/-- The network address of process `p` (messages are delivered with the
true sender's address; the validator compares its hostname). -/
def addrOf (run : SyncRun) (p : ℕ) : Address :=
  run.processes.getD p ⟨"", 0⟩

/-- The relays correct Lieutenants fan out on entry to round `k + 1`,
following `InitNewRound` (`src/general.cc:194-206`): each message `accPrev
j` retained by a correct Lieutenant `j` is re-sent with `round := k + 1`
and `j` appended to its path, to every process not on the extended path. -/
def relayPool (run : SyncRun) (accPrev : ℕ → Finset Message) (k i : ℕ) :
    Finset (ℕ × Message) :=
  ((Finset.range run.n).filter (fun j => run.correct j = true ∧ j ≠ 0)).biUnion
    (fun j => ((accPrev j).filter (fun msg => i ∉ msg.ids ++ [j])).image
      (fun msg => (j, ⟨k + 1, msg.order, msg.ids ++ [j]⟩)))

/-- Messages accepted by Lieutenant `i` in round `k`: round 0 is the
Commander's single message (the `orders_seen_.size() == 0` guard of
`src/general.cc:117` admits at most one; Byzantine round-0 messages from
other hosts fail the hostname clause); later rounds are the correct relays
plus the Byzantine deliveries, filtered by the validator. -/
def acc (run : SyncRun) : ℕ → ℕ → Finset Message
  | 0 => fun i =>
      ({ ⟨0, run.co i, [0]⟩ } : Finset Message).filter
        (fun msg => ValidMessage (run.lstate i 0) msg (run.addrOf 0) = true)
  | (k + 1) => fun i =>
      ((relayPool run (acc run k) k i ∪ run.byz (k + 1) i).filter
        (fun sm => ValidMessage (run.lstate i (k + 1)) sm.2 (run.addrOf sm.1) = true)).image
        Prod.snd

/-- `orders_seen_` at the end of the run: the orders of all messages
accepted in rounds `0 .. m` (never cleared, `src/general.cc:222-223`). -/
def ordersSeen (run : SyncRun) (i : ℕ) : Finset ℕ :=
  (Finset.range (run.m + 1)).biUnion (fun k => (acc run k i).image Message.order)

/-- Lieutenant `i`'s state when the listen loop stops. -/
def finalState (run : SyncRun) (i : ℕ) : Lieutenant :=
  { run.lstate i run.m with orders_seen_ := ordersSeen run i }

/-- What Lieutenant `i`'s `Decide()` returns: `DecideOrder` on the orders
seen across the run. -/
def decision (run : SyncRun) (i : ℕ) : ℕ :=
  DecideOrder (run.finalState i)

/-- Process `i` is a Lieutenant (the Commander is process 0). -/
@[reducible] def isLieutenant (run : SyncRun) (i : ℕ) : Prop :=
  0 < i ∧ i < run.n

/-- Number of Byzantine processes. -/
def byzCount (run : SyncRun) : ℕ :=
  ((Finset.range run.n).filter (fun p => run.correct p = false)).card

/-- Well-formedness: hostnames are pairwise distinct (the documented
same-host limitation, `src/general.cc:256-258`, is out of scope). -/
@[reducible] def distinctHosts (run : SyncRun) : Prop :=
  (run.processes.map Address.hostname).Nodup

/-- Well-formedness: Byzantine deliveries come from Byzantine processes
(with their authentic source address). -/
def byzWF (run : SyncRun) : Prop :=
  ∀ k i, ∀ sm ∈ run.byz k i, sm.1 < run.n ∧ run.correct sm.1 = false

/-- Well-formedness: a correct Commander sends every Lieutenant the same
order. -/
def commanderWF (run : SyncRun) : Prop :=
  run.correct 0 = true → ∀ i j, run.co i = run.co j

end SyncRun

/-- A relay path `p` a Lieutenant `i` can validly receive in round `k`:
length `k + 1`, starting at the Commander, no repeats, all ids in range,
receiver not on the path. -/
def isValidPath (n k i : ℕ) (p : List ℕ) : Prop :=
  p.length = k + 1 ∧ p.headI = 0 ∧ p.Nodup ∧ (∀ x ∈ p, x < n) ∧ i ∉ p

/-- The participant table of the concrete counterexample run: four
processes on four distinct hosts. -/
def badTable : List Address :=
  [⟨"h0", 0⟩, ⟨"h1", 0⟩, ⟨"h2", 0⟩, ⟨"h3", 0⟩]

/-- Byzantine behaviour of process 3 in the counterexample run: in the last
round it relays the Commander's ATTACK faithfully to Lieutenant 2 but
claims RETREAT to Lieutenant 1. -/
def badByz : ℕ → ℕ → Finset (ℕ × Generals.Message) := fun k i =>
  if k = 1 ∧ i = 1 then {(3, ⟨1, RETREAT, [0, 3]⟩)}
  else if k = 1 ∧ i = 2 then {(3, ⟨1, ATTACK, [0, 3]⟩)}
  else ∅

/-- The counterexample run: `n = 4`, `m = 1`, a correct Commander proposing
ATTACK, correct Lieutenants 1 and 2, Byzantine Lieutenant 3. -/
def badRun : SyncRun :=
  { processes := badTable
    m := 1
    correct := fun p => decide (p ≠ 3)
    co := fun _ => ATTACK
    byz := badByz }

/-- A fault-free 4-process run (spec scenario S1): everyone correct, the
Commander proposes ATTACK. -/
def goodRun : SyncRun :=
  { processes := badTable
    m := 1
    correct := fun _ => true
    co := fun _ => ATTACK
    byz := fun _ _ => ∅ }

/-! ## Basic lemmas about the validator and the decision function -/

theorem dedup_length_lt_iff (l : List ℕ) :
    l.dedup.length < l.length ↔ ¬ l.Nodup := by
  constructor
  · intro h hn
    rw [List.dedup_eq_self.mpr hn] at h
    exact lt_irrefl _ h
  · intro hn
    rcases Nat.lt_or_ge l.dedup.length l.length with h | h
    · exact h
    · have heq : l.dedup = l :=
        l.dedup_sublist.eq_of_length (Nat.le_antisymm l.dedup_sublist.length_le h)
      exact absurd (heq ▸ l.nodup_dedup) hn

/-- The validator accepts exactly when all seven clauses of the spec hold. -/
theorem ValidMessage_iff (st : Lieutenant) (msg : Message) (fromA : Address) :
    ValidMessage st msg fromA = true ↔
      (msg.round = st.round_ ∧
       msg.ids.length = msg.round + 1 ∧
       msg.ids.headI = 0 ∧
       (∀ id ∈ msg.ids, id < st.processes_.length) ∧
       (∀ id ∈ msg.ids, id ≠ st.id_) ∧
       msg.ids.Nodup ∧
       (st.processes_.getD (msg.ids.getLastD 0) ⟨"", 0⟩).hostname = fromA.hostname) := by
  unfold ValidMessage
  by_cases h1 : msg.round ≠ st.round_
  · simp only [if_pos h1]
    exact ⟨fun h => absurd h (by decide), fun h => absurd h.1 h1⟩
  · rw [if_neg h1]
    by_cases h2 : msg.round + 1 ≠ msg.ids.length
    · rw [if_pos h2]
      exact ⟨fun h => absurd h (by decide), fun h => absurd h.2.1.symm h2⟩
    · rw [if_neg h2]
      by_cases h3 : msg.ids.headI ≠ 0
      · rw [if_pos h3]
        exact ⟨fun h => absurd h (by decide), fun h => absurd h.2.2.1 h3⟩
      · rw [if_neg h3]
        by_cases h4 : msg.ids.any
            (fun id => decide (st.processes_.length ≤ id) || decide (id = st.id_)) = true
        · rw [if_pos h4]
          refine ⟨fun h => absurd h (by decide), fun h => ?_⟩
          rcases List.any_eq_true.mp h4 with ⟨id, hid, hcase⟩
          rcases Bool.or_eq_true_iff.mp hcase with hc | hc
          · exact absurd (h.2.2.2.1 id hid) (Nat.not_lt.mpr (of_decide_eq_true hc))
          · exact absurd (of_decide_eq_true hc) (h.2.2.2.2.1 id hid)
        · rw [if_neg h4]
          by_cases h5 : msg.ids.dedup.length < msg.ids.length
          · rw [if_pos h5]
            exact ⟨fun h => absurd h (by decide),
              fun h => absurd h.2.2.2.2.2.1 ((dedup_length_lt_iff _).mp h5)⟩
          · rw [if_neg h5]
            by_cases h6 : (st.processes_.getD (msg.ids.getLastD 0) ⟨"", 0⟩).hostname ≠
                fromA.hostname
            · rw [if_pos h6]
              exact ⟨fun h => absurd h (by decide), fun h => absurd h.2.2.2.2.2.2 h6⟩
            · rw [if_neg h6]
              refine ⟨fun _ => ?_, fun _ => rfl⟩
              refine ⟨not_not.mp h1, (not_not.mp h2).symm, not_not.mp h3, ?_, ?_,
                not_not.mp ((dedup_length_lt_iff _).not.mp h5), not_not.mp h6⟩
              · intro id hid
                have := fun hle => h4 (List.any_eq_true.mpr
                  ⟨id, hid, Bool.or_eq_true_iff.mpr (Or.inl (decide_eq_true hle))⟩)
                exact Nat.lt_of_not_le fun hle => this hle
              · intro id hid heq
                exact h4 (List.any_eq_true.mpr
                  ⟨id, hid, Bool.or_eq_true_iff.mpr (Or.inr (decide_eq_true heq))⟩)

theorem DecideOrder_eq_ATTACK_iff (st : Lieutenant) :
    DecideOrder st = ATTACK ↔ st.orders_seen_ = {ATTACK} := by
  constructor
  · intro h
    by_cases hc : st.orders_seen_.card = 1 ∧ ATTACK ∈ st.orders_seen_
    · rcases Finset.card_eq_one.mp hc.1 with ⟨a, ha⟩
      have hA : ATTACK = a := by
        have hm := hc.2
        rw [ha] at hm
        exact Finset.mem_singleton.mp hm
      rw [ha, ← hA]
    · rw [DecideOrder, if_neg hc] at h
      exact absurd h (by decide)
  · intro h
    rw [DecideOrder, h,
      if_pos ⟨Finset.card_singleton _, Finset.mem_singleton_self _⟩]

theorem DecideOrder_eq_or (st : Lieutenant) :
    DecideOrder st = ATTACK ∨ DecideOrder st = RETREAT := by
  unfold DecideOrder
  split
  · exact Or.inl rfl
  · exact Or.inr rfl

/-! ## Claim C2: the decision function -/

/-- **C2**: for every Lieutenant state, `DecideOrder` returns ATTACK iff
`orders_seen_` is exactly `{ATTACK}`; in every other case — including an
empty `orders_seen_` and any set containing RETREAT — it returns RETREAT. -/
theorem C2_DecideOrder (st : Lieutenant) :
    (DecideOrder st = ATTACK ↔ st.orders_seen_ = {ATTACK}) ∧
    (st.orders_seen_ ≠ {ATTACK} → DecideOrder st = RETREAT) := by
  refine ⟨DecideOrder_eq_ATTACK_iff st, fun h => ?_⟩
  rcases DecideOrder_eq_or st with hA | hR
  · exact absurd ((DecideOrder_eq_ATTACK_iff st).mp hA) h
  · exact hR

/-- Witness for C2 at a concrete state: the empty `orders_seen_` of a fresh
Lieutenant yields RETREAT. -/
theorem C2_DecideOrder_witness :
    DecideOrder (initState 1 [] 2) = RETREAT :=
  (C2_DecideOrder (initState 1 [] 2)).2 (by decide)

/-! ## Claim C3: the message validator -/

/-- **C3**: `ValidMessage(msg, from)` returns true iff all seven clauses
hold: the round matches, `len(ids) = round + 1`, `ids[0] = 0`, every id is
in range, no id equals the receiver's own id, the ids are pairwise
distinct, and the hostname of `participants[ids.back()]` equals the
sender's hostname (the port is not compared). -/
theorem C3_ValidMessage (st : Lieutenant) (msg : Message) (fromA : Address) :
    ValidMessage st msg fromA = true ↔
      (msg.round = st.round_ ∧
       msg.ids.length = msg.round + 1 ∧
       msg.ids.headI = 0 ∧
       (∀ id ∈ msg.ids, id < st.processes_.length) ∧
       (∀ id ∈ msg.ids, id ≠ st.id_) ∧
       msg.ids.Nodup ∧
       (st.processes_.getD (msg.ids.getLastD 0) ⟨"", 0⟩).hostname = fromA.hostname) :=
  ValidMessage_iff st msg fromA

/-! ## Claim C10: decoding inspects only the buffer length -/

/-- **C10**: acceptance by the decoders depends only on the buffer length:
every buffer of length at least `sizeof(ByzantineMessage)` decodes to some
Relay message regardless of its type and size fields, and every buffer of
exactly `sizeof(Ack)` bytes yields a round. -/
theorem C10_decode_length_only (buf : List ℕ) :
    ((ByzantineMsgFromBuf buf).isSome ↔ byzantineMessageSize ≤ buf.length) ∧
    ((RoundOfAck buf).isSome ↔ buf.length = ackSize) := by
  constructor
  · unfold ByzantineMsgFromBuf
    split
    · next h => simp only [Option.isSome_none, Bool.false_eq_true, false_iff]; omega
    · next h => simp only [Option.isSome_some, true_iff]; omega
  · unfold RoundOfAck
    split
    · next h => simp only [Option.isSome_none, Bool.false_eq_true, false_iff]; omega
    · next h => simp only [Option.isSome_some, true_iff]; omega

/-! ## Claim C6: decoder failure conditions -/

/-- **C6**, counterexample: an 18-byte buffer has `(n − header) % 4 ≠ 0`,
yet `ByzantineMsgFromBuf` does not return an absent value — it decodes it,
truncating the two trailing bytes.  The claim that such buffers are
rejected is false on the code. -/
theorem C6_counterexample :
    (18 - byzantineMessageSize) % 4 ≠ 0 ∧
    ByzantineMsgFromBuf (List.replicate 18 0) =
      some { round := 0, order := 0, ids := [] } := by decide

/-- **C6 (amended)**: `ByzantineMsgFromBuf` returns an absent value exactly
when the buffer is shorter than the fixed Relay header; otherwise it yields
a message whose `ids` has `(n − header) / 4` entries (any remainder bytes
are ignored, not rejected).  `RoundOfAck` returns an absent value exactly
when the buffer is not exactly the Ack size. -/
theorem C6_decode_failure (buf : List ℕ) :
    (ByzantineMsgFromBuf buf = none ↔ buf.length < byzantineMessageSize) ∧
    (∀ m, ByzantineMsgFromBuf buf = some m →
      m.ids.length = (buf.length - byzantineMessageSize) / 4) ∧
    (RoundOfAck buf = none ↔ buf.length ≠ ackSize) := by
  refine ⟨?_, ?_, ?_⟩
  · unfold ByzantineMsgFromBuf
    split
    · next h => simp only [true_iff]; exact h
    · next h => simp only [reduceCtorEq, false_iff]; exact h
  · intro m hm
    unfold ByzantineMsgFromBuf at hm
    split at hm
    · exact absurd hm (by simp)
    · cases hm
      simp [List.length_map, List.length_range]
  · unfold RoundOfAck
    split
    · next h => simp only [true_iff]; exact h
    · next h => simp only [reduceCtorEq, false_iff]; exact h

/-- Witness for C6 (amended) at a concrete buffer: a 20-byte buffer decodes
to a message with `(20 − 16) / 4 = 1` id. -/
theorem C6_decode_failure_witness :
    ({ round := 0, order := 0, ids := [0] } : Message).ids.length =
      ((List.replicate 20 0).length - byzantineMessageSize) / 4 :=
  (C6_decode_failure (List.replicate 20 0)).2.1 _ (by decide)

/-! ## Claim C9: invalid datagrams are dropped silently -/

/-- **C9**: for every incoming datagram that fails to decode or fails the
validator, the `on_message` callback emits no Ack, leaves the state (and in
particular `round_`, `orders_seen_`, `msgs_this_round_`, `ids_this_round_`)
unchanged, and returns `Continue`, so the listen loop keeps running. -/
theorem C9_invalid_dropped (st : Lieutenant) (buf : List ℕ) (fromA : Address)
    (h : ∀ m, ByzantineMsgFromBuf buf = some m → ValidMessage st m fromA = false) :
    onMessage st buf fromA = some ⟨st, ServerAction.Continue, false⟩ := by
  unfold onMessage
  cases hd : ByzantineMsgFromBuf buf with
  | none => rfl
  | some m =>
    simp only []
    rw [if_pos (h m hd)]

/-- Witness for C9: an empty datagram fails to decode and is dropped with
no state change. -/
theorem C9_invalid_dropped_witness :
    onMessage (initState 1 [] 2) [] ⟨"h9", 0⟩ =
      some ⟨initState 1 [] 2, ServerAction.Continue, false⟩ :=
  C9_invalid_dropped (initState 1 [] 2) [] ⟨"h9", 0⟩
    (fun m hm => by simp [ByzantineMsgFromBuf, byzantineMessageSize] at hm)

/-! ## Claim C7: concrete codec sizes and round-trip -/

/-- **C7**, counterexample: the claimed byte count is arithmetically wrong.
A Relay with `round = 2` carries `round + 1 = 3` ids, so the frame layout
`16 + 4·(round+1)` cited by the claim itself gives 28 bytes, not 24:
`SendMessage`'s buffer for `(round=2, order=ATTACK, ids=[0,3,1])` is 28
bytes long. -/
theorem C7_counterexample :
    (SendMessage ⟨2, ATTACK, [0, 3, 1]⟩).length ≠ 24 ∧
    (SendMessage ⟨2, ATTACK, [0, 3, 1]⟩).length = 28 := by decide

/-- **C7 (amended)**: a Relay with `round = 2, order = ATTACK,
ids = [0,3,1]` encodes via `SendMessage`'s buffer construction to exactly
28 bytes — the frame layout `16 + 4·(round+1)` — and decodes back to the
same value; an Ack for round 2 encodes via `SendAckForRound` to exactly
12 bytes. -/
theorem C7_concrete_codec :
    (SendMessage ⟨2, ATTACK, [0, 3, 1]⟩).length = byzantineMessageSize + 4 * (2 + 1) ∧
    ByzantineMsgFromBuf (SendMessage ⟨2, ATTACK, [0, 3, 1]⟩) =
      some ⟨2, ATTACK, [0, 3, 1]⟩ ∧
    (SendAckForRound 2).length = 12 := by decide

/-! ## Claim C4: expected message count and immediate round advance -/

/-- **C4**: `MessagesForRound` satisfies `M(n, 0) = 1` and, for `k ≥ 1`,
`M(n, k) = (n − 1 − k) · M(n, k − 1)`; a round is complete exactly when
`|ids_this_round_|` equals `M(n, round_)`; and an accepted message that
reaches this count makes the `on_message` callback advance the round at
once (or `Stop` in the last round) instead of waiting for the idle
timeout. -/
theorem C4_round_complete :
    (∀ n : ℕ, MessagesForRound n 0 = 1) ∧
    (∀ n k : ℕ, 1 ≤ k →
      MessagesForRound n k = (n - 1 - k) * MessagesForRound n (k - 1)) ∧
    (∀ st : Lieutenant, RoundComplete st = true ↔
      st.ids_this_round_.card = MessagesForRound st.processes_.length st.round_) ∧
    (∀ (st : Lieutenant) (buf : List ℕ) (fromA : Address) (msg : Message),
      ByzantineMsgFromBuf buf = some msg →
      ValidMessage st msg fromA = true →
      FirstRound st = false →
      msg.ids ∉ st.ids_this_round_ →
      (∀ m ∈ st.msgs_this_round_, m.round = st.round_) →
      (insert msg.ids st.ids_this_round_).card =
        MessagesForRound st.processes_.length st.round_ →
      ((LastRound st = true → onMessage st buf fromA =
          some ⟨{ st with
              ids_this_round_ := insert msg.ids st.ids_this_round_
              msgs_this_round_ := insert msg st.msgs_this_round_
              orders_seen_ := insert msg.order st.orders_seen_ },
            ServerAction.Stop, true⟩) ∧
       (LastRound st = false → onMessage st buf fromA =
          some ⟨{ st with
              round_ := st.round_ + 1
              ids_this_round_ := ∅
              msgs_this_round_ := ∅
              orders_seen_ := insert msg.order st.orders_seen_ },
            ServerAction.Continue, true⟩))) := by
  refine ⟨fun n => rfl, fun n k hk => ?_, fun st => by simp [RoundComplete],
    fun st buf fromA msg hdec hval hfr hnew hmsgs hcard => ?_⟩
  · obtain ⟨r, rfl⟩ : ∃ r, k = r + 1 := ⟨k - 1, by omega⟩
    rfl
  · have hround : msg.round = st.round_ := ((ValidMessage_iff st msg fromA).mp hval).1
    set stA : Lieutenant := { st with
      ids_this_round_ := insert msg.ids st.ids_this_round_
      msgs_this_round_ := insert msg st.msgs_this_round_
      orders_seen_ := insert msg.order st.orders_seen_ } with hstA
    have hcomp : RoundComplete stA = true := by
      simp only [RoundComplete, decide_eq_true_eq]
      exact hcard
    have hAccept : acceptLater st msg = (stA, true) := by
      unfold acceptLater
      rw [if_neg hnew]
      show (stA, RoundComplete stA) = (stA, true)
      rw [hcomp]
    have hstep : onMessage st buf fromA =
        (MoveToNewRoundOrStop stA).map (fun q => ⟨q.1, q.2, true⟩) := by
      unfold onMessage
      rw [hdec]
      simp only []
      rw [if_neg (show ¬ (ValidMessage st msg fromA = false) by simp [hval])]
      rw [if_neg (show ¬ (FirstRound st = true) by simp [hfr])]
      rw [hAccept]
      rfl
    constructor
    · intro hlast
      rw [hstep]
      unfold MoveToNewRoundOrStop
      rw [if_pos (show LastRound stA = true from hlast)]
      rfl
    · intro hlast
      rw [hstep]
      unfold MoveToNewRoundOrStop
      rw [if_neg (show ¬ LastRound stA = true by
        simp only [show LastRound stA = LastRound st from rfl, hlast]
        exact Bool.false_ne_true)]
      have hguard : ¬ ∃ m ∈ stA.msgs_this_round_,
          m.round ≠ (IncrementRound stA).round_ - 1 := by
        rintro ⟨m, hm, hne⟩
        have hr1 : (IncrementRound stA).round_ - 1 = st.round_ := by
          simp [IncrementRound, hstA]
        have hm' : m ∈ insert msg st.msgs_this_round_ := by
          simpa [hstA] using hm
        rcases Finset.mem_insert.mp hm' with rfl | hmem
        · exact hne (by rw [hr1, hround])
        · exact hne (by rw [hr1, hmsgs m hmem])
      unfold InitNewRound
      rw [if_neg hguard]
      rfl

/-- Witness for C4 at a concrete state: Lieutenant 1 of a 4-process,
2-round run, one path short of completing round 1, receives the missing
relay from process 3 and stops immediately. -/
theorem C4_round_complete_witness :
    onMessage ⟨1, badTable, 2, 1, {ATTACK}, {⟨1, ATTACK, [0, 2]⟩}, {[0, 2]}⟩
        (SendMessage ⟨1, ATTACK, [0, 3]⟩) ⟨"h3", 9⟩ =
      some ⟨⟨1, badTable, 2, 1, insert ATTACK {ATTACK},
        insert ⟨1, ATTACK, [0, 3]⟩ {⟨1, ATTACK, [0, 2]⟩},
        insert [0, 3] {[0, 2]}⟩, ServerAction.Stop, true⟩ :=
  (C4_round_complete.2.2.2 ⟨1, badTable, 2, 1, {ATTACK}, {⟨1, ATTACK, [0, 2]⟩}, {[0, 2]}⟩
    (SendMessage ⟨1, ATTACK, [0, 3]⟩) ⟨"h3", 9⟩ ⟨1, ATTACK, [0, 3]⟩
    (by decide) (by decide) (by decide) (by decide) (by decide) (by decide)).1 (by decide)

/-! ## Claim C8: codec round-trip -/

theorem getD_append_offset (l₁ l₂ : List ℕ) (j : ℕ) :
    (l₁ ++ l₂).getD (l₁.length + j) 0 = l₂.getD j 0 := by
  rw [List.getD_append_right _ _ _ _ (Nat.le_add_right _ _), Nat.add_sub_cancel_left]

theorem ntohl_htonl_append (x : ℕ) (rest : List ℕ) :
    ntohl (htonlBytes x ++ rest) 0 = x % 4294967296 := by
  show x / 16777216 % 256 * 16777216 + x / 65536 % 256 * 65536 +
      x / 256 % 256 * 256 + x % 256 = x % 4294967296
  omega

theorem ntohl_append_right (l₁ l₂ : List ℕ) (k : ℕ) :
    ntohl (l₁ ++ l₂) (l₁.length + k) = ntohl l₂ k := by
  unfold ntohl
  rw [show l₁.length + k + 1 = l₁.length + (k + 1) by omega,
    show l₁.length + k + 2 = l₁.length + (k + 2) by omega,
    show l₁.length + k + 3 = l₁.length + (k + 3) by omega,
    getD_append_offset, getD_append_offset, getD_append_offset, getD_append_offset]

theorem ntohl_flatten_htonl (ids : List ℕ) :
    ∀ i, i < ids.length →
      ntohl ((ids.map htonlBytes).flatten) (4 * i) = ids.getD i 0 % 4294967296 := by
  induction ids with
  | nil => intro i h; exact absurd h (by simp)
  | cons a t ih =>
    intro i h
    cases i with
    | zero =>
      simp only [List.map_cons, List.flatten_cons, Nat.mul_zero]
      rw [ntohl_htonl_append]
      rfl
    | succ i' =>
      simp only [List.map_cons, List.flatten_cons]
      rw [show 4 * (i' + 1) = (htonlBytes a).length + 4 * i' by
        simp only [htonlBytes, List.length_cons, List.length_nil]; omega]
      rw [ntohl_append_right, List.getD_cons_succ]
      exact ih i' (by simp only [List.length_cons] at h; omega)

theorem length_flatten_htonl (ids : List ℕ) :
    ((ids.map htonlBytes).flatten).length = 4 * ids.length := by
  induction ids with
  | nil => rfl
  | cons a t ih =>
    simp only [List.map_cons, List.flatten_cons, List.length_append, ih,
      htonlBytes, List.length_cons, List.length_nil]
    omega

theorem length_SendMessage (msg : Message) :
    (SendMessage msg).length = byzantineMessageSize + 4 * msg.ids.length := by
  simp only [SendMessage, List.length_append, length_flatten_htonl, htonlBytes,
    List.length_cons, List.length_nil, byzantineMessageSize]

theorem relay_roundtrip (msg : Message)
    (hr : msg.round < 4294967296) (ho : msg.order < 4294967296)
    (hids : ∀ id ∈ msg.ids, id < 4294967296) :
    ByzantineMsgFromBuf (SendMessage msg) = some msg := by
  have hlen := length_SendMessage msg
  have hassoc8 : SendMessage msg =
      (htonlBytes kByzantineMessageType ++
        htonlBytes (byzantineMessageSize + 4 * msg.ids.length)) ++
      (htonlBytes msg.round ++ (htonlBytes msg.order ++ (msg.ids.map htonlBytes).flatten)) := by
    simp [SendMessage, List.append_assoc]
  have hassoc12 : SendMessage msg =
      ((htonlBytes kByzantineMessageType ++
        htonlBytes (byzantineMessageSize + 4 * msg.ids.length)) ++ htonlBytes msg.round) ++
      (htonlBytes msg.order ++ (msg.ids.map htonlBytes).flatten) := by
    simp [SendMessage, List.append_assoc]
  have hassoc16 : SendMessage msg =
      (((htonlBytes kByzantineMessageType ++
        htonlBytes (byzantineMessageSize + 4 * msg.ids.length)) ++ htonlBytes msg.round) ++
        htonlBytes msg.order) ++
      (msg.ids.map htonlBytes).flatten := by
    simp [SendMessage, List.append_assoc]
  have hround : ntohl (SendMessage msg) 8 = msg.round := by
    rw [hassoc8,
      show (8 : ℕ) = (htonlBytes kByzantineMessageType ++
        htonlBytes (byzantineMessageSize + 4 * msg.ids.length)).length + 0 by
          simp [htonlBytes],
      ntohl_append_right, ntohl_htonl_append, Nat.mod_eq_of_lt hr]
  have horder : ntohl (SendMessage msg) 12 = msg.order := by
    rw [hassoc12,
      show (12 : ℕ) = ((htonlBytes kByzantineMessageType ++
        htonlBytes (byzantineMessageSize + 4 * msg.ids.length)) ++
          htonlBytes msg.round).length + 0 by simp [htonlBytes],
      ntohl_append_right, ntohl_htonl_append, Nat.mod_eq_of_lt ho]
  have hids_eq : (List.range (((SendMessage msg).length - byzantineMessageSize) / 4)).map
      (fun i => ntohl (SendMessage msg) (byzantineMessageSize + 4 * i)) = msg.ids := by
    have hL : ((SendMessage msg).length - byzantineMessageSize) / 4 = msg.ids.length := by
      rw [hlen]
      omega
    rw [hL]
    apply List.ext_getElem (by simp)
    intro i h1 h2
    simp only [List.getElem_map, List.getElem_range]
    rw [hassoc16,
      show byzantineMessageSize + 4 * i = ((((htonlBytes kByzantineMessageType ++
        htonlBytes (byzantineMessageSize + 4 * msg.ids.length)) ++ htonlBytes msg.round) ++
          htonlBytes msg.order)).length + 4 * i by simp [htonlBytes, byzantineMessageSize],
      ntohl_append_right, ntohl_flatten_htonl msg.ids i h2,
      List.getD_eq_getElem msg.ids 0 h2, Nat.mod_eq_of_lt (hids _ (List.getElem_mem h2))]
  unfold ByzantineMsgFromBuf
  rw [if_neg (by omega)]
  rw [hround, horder, hids_eq]

theorem ack_roundtrip (r : ℕ) (hr : r < 4294967296) :
    RoundOfAck (SendAckForRound r) = some r := by
  have h8 : ntohl (SendAckForRound r) 8 = r := by
    unfold SendAckForRound
    rw [show htonlBytes kAckType ++ htonlBytes ackSize ++ htonlBytes r =
        (htonlBytes kAckType ++ htonlBytes ackSize) ++ (htonlBytes r ++ []) by simp,
      show (8 : ℕ) = (htonlBytes kAckType ++ htonlBytes ackSize).length + 0 by
        simp [htonlBytes],
      ntohl_append_right, ntohl_htonl_append, Nat.mod_eq_of_lt hr]
  unfold RoundOfAck
  rw [if_neg (by simp [SendAckForRound, htonlBytes, ackSize]), h8]

/-- **C8**: codec round-trip — decoding the buffer produced by
`SendMessage` recovers the original `round`, `order` and `ids` of every
Relay with a valid path (all fields being 32-bit values), and `RoundOfAck`
applied to the buffer produced by `SendAckForRound` recovers the original
round. -/
theorem C8_codec_roundtrip :
    (∀ msg : Message,
      msg.ids.length = msg.round + 1 → msg.ids.headI = 0 → msg.ids.Nodup →
      msg.round < 4294967296 → msg.order < 4294967296 →
      (∀ id ∈ msg.ids, id < 4294967296) →
      ByzantineMsgFromBuf (SendMessage msg) = some msg) ∧
    (∀ r : ℕ, r < 4294967296 → RoundOfAck (SendAckForRound r) = some r) :=
  ⟨fun msg _ _ _ hr ho hids => relay_roundtrip msg hr ho hids,
   fun r hr => ack_roundtrip r hr⟩

/-- Witness for C8 at a concrete Relay and Ack. -/
theorem C8_codec_roundtrip_witness :
    ByzantineMsgFromBuf (SendMessage ⟨1, RETREAT, [0, 2]⟩) = some ⟨1, RETREAT, [0, 2]⟩ ∧
    RoundOfAck (SendAckForRound 7) = some 7 :=
  ⟨C8_codec_roundtrip.1 ⟨1, RETREAT, [0, 2]⟩ (by decide) (by decide) (by decide)
      (by decide) (by decide) (by decide),
   C8_codec_roundtrip.2 7 (by decide)⟩

/-! ## Claim C5: the Round State invariant between callbacks -/

theorem InitNewRound_eq_some {st st' : Lieutenant} (h : InitNewRound st = some st') :
    st' = { st with
      round_ := st.round_ + 1
      ids_this_round_ := ∅
      msgs_this_round_ := ∅ } := by
  unfold InitNewRound at h
  simp only [] at h
  by_cases hg : ∃ m ∈ st.msgs_this_round_, m.round ≠ (IncrementRound st).round_ - 1
  · rw [if_pos hg] at h
    exact absurd h (by simp)
  · rw [if_neg hg] at h
    simp only [Option.some.injEq] at h
    rw [← h]
    rfl

theorem MoveToNewRoundOrStop_continue {st st' : Lieutenant}
    (h : MoveToNewRoundOrStop st = some (st', ServerAction.Continue)) :
    st' = { st with
      round_ := st.round_ + 1
      ids_this_round_ := ∅
      msgs_this_round_ := ∅ } := by
  unfold MoveToNewRoundOrStop at h
  split at h
  · simp only [Option.some.injEq, Prod.mk.injEq] at h
    exact absurd h.2 (by simp)
  · rcases hI : InitNewRound st with _ | s
    · rw [hI] at h
      exact absurd h (by simp)
    · rw [hI] at h
      simp only [Option.map_some', Option.some.injEq, Prod.mk.injEq] at h
      rw [← h.1]
      exact InitNewRound_eq_some hI

/-- Inversion of one `on_message` callback that returned `Continue`:
either the message was dropped or a duplicate (no state change), or it was
accepted without completing the round, or the round advanced and the new
round starts with cleared `ids_this_round_` and `msgs_this_round_`. -/
theorem onMessage_continue_cases {st : Lieutenant} {buf : List ℕ} {fromA : Address}
    {st' : Lieutenant} {a : Bool}
    (h : onMessage st buf fromA = some ⟨st', ServerAction.Continue, a⟩) :
    st' = st ∨
    (∃ msg, ByzantineMsgFromBuf buf = some msg ∧ ValidMessage st msg fromA = true ∧
      st.round_ ≠ 0 ∧ msg.ids ∉ st.ids_this_round_ ∧
      st' = { st with
        ids_this_round_ := insert msg.ids st.ids_this_round_
        msgs_this_round_ := insert msg st.msgs_this_round_
        orders_seen_ := insert msg.order st.orders_seen_ }) ∨
    (∃ st₀ : Lieutenant, st' = { st₀ with
      round_ := st₀.round_ + 1
      ids_this_round_ := ∅
      msgs_this_round_ := ∅ }) := by
  unfold onMessage at h
  rcases hd : ByzantineMsgFromBuf buf with _ | msg
  · rw [hd] at h
    simp only [Option.some.injEq, StepResult.mk.injEq] at h
    exact Or.inl h.1.symm
  · rw [hd] at h
    simp only [] at h
    by_cases hv : ValidMessage st msg fromA = false
    · rw [if_pos hv] at h
      simp only [Option.some.injEq, StepResult.mk.injEq] at h
      exact Or.inl h.1.symm
    · rw [if_neg hv] at h
      have hval : ValidMessage st msg fromA = true := by
        cases hb : ValidMessage st msg fromA
        · exact absurd hb hv
        · rfl
      by_cases hf : FirstRound st = true
      · rw [if_pos hf] at h
        unfold acceptRound0 at h
        by_cases hg : st.orders_seen_.card = 0
        · rw [if_pos hg] at h
          simp only [] at h
          rw [if_pos trivial] at h
          rw [Option.map_eq_some'] at h
          obtain ⟨q, hq, he⟩ := h
          obtain ⟨q1, q2⟩ := q
          cases he
          exact Or.inr (Or.inr ⟨_, MoveToNewRoundOrStop_continue hq⟩)
        · rw [if_neg hg] at h
          simp only [] at h
          rw [if_neg (by simp)] at h
          simp only [Option.some.injEq, StepResult.mk.injEq] at h
          exact Or.inl h.1.symm
      · rw [if_neg hf] at h
        have hr0 : st.round_ ≠ 0 := by
          intro h0
          exact hf (by simp [FirstRound, h0])
        unfold acceptLater at h
        by_cases hdup : msg.ids ∈ st.ids_this_round_
        · rw [if_pos hdup] at h
          simp only [] at h
          rw [if_neg (by simp)] at h
          simp only [Option.some.injEq, StepResult.mk.injEq] at h
          exact Or.inl h.1.symm
        · rw [if_neg hdup] at h
          simp only [] at h
          by_cases hcomp : RoundComplete { st with
              ids_this_round_ := insert msg.ids st.ids_this_round_
              msgs_this_round_ := insert msg st.msgs_this_round_
              orders_seen_ := insert msg.order st.orders_seen_ } = true
          · rw [if_pos hcomp] at h
            rw [Option.map_eq_some'] at h
            obtain ⟨q, hq, he⟩ := h
            obtain ⟨q1, q2⟩ := q
            cases he
            exact Or.inr (Or.inr ⟨_, MoveToNewRoundOrStop_continue hq⟩)
          · rw [if_neg hcomp] at h
            simp only [Option.some.injEq, StepResult.mk.injEq] at h
            exact Or.inr (Or.inl ⟨msg, rfl, hval, hr0, hdup, h.1.symm⟩)

/-- Inversion of one `on_timeout` callback that returned `Continue`. -/
theorem timeout_continue_cases {st st' : Lieutenant}
    (h : HandleRoundTimeout st = some (st', ServerAction.Continue)) :
    st' = st ∨
    (∃ st₀ : Lieutenant, st' = { st₀ with
      round_ := st₀.round_ + 1
      ids_this_round_ := ∅
      msgs_this_round_ := ∅ }) := by
  unfold HandleRoundTimeout at h
  split at h
  · simp only [Option.some.injEq, Prod.mk.injEq] at h
    exact Or.inl h.1.symm
  · exact Or.inr ⟨st, MoveToNewRoundOrStop_continue h⟩

/-- A freshly advanced round satisfies the invariant. -/
theorem StateInv_advanced (st₀ : Lieutenant) :
    StateInv { st₀ with
      round_ := st₀.round_ + 1
      ids_this_round_ := ∅
      msgs_this_round_ := ∅ } := by
  refine ⟨fun m hm => absurd hm (by simp), by simp,
    fun m1 hm1 => absurd hm1 (by simp), fun _ => rfl⟩

/-- Accepting a fresh valid message in a round `≥ 1` preserves the
invariant. -/
theorem StateInv_accept {st : Lieutenant} {msg : Message} {fromA : Address}
    (hinv : StateInv st) (hval : ValidMessage st msg fromA = true)
    (hfr : st.round_ ≠ 0) (hnew : msg.ids ∉ st.ids_this_round_) :
    StateInv { st with
      ids_this_round_ := insert msg.ids st.ids_this_round_
      msgs_this_round_ := insert msg st.msgs_this_round_
      orders_seen_ := insert msg.order st.orders_seen_ } := by
  obtain ⟨h1, h2, h3, _⟩ := hinv
  have hround : msg.round = st.round_ := ((ValidMessage_iff st msg fromA).mp hval).1
  refine ⟨?_, ?_, ?_, fun h0 => absurd h0 hfr⟩
  · intro m hm
    rcases Finset.mem_insert.mp hm with rfl | hm'
    · exact hround
    · exact h1 m hm'
  · simp only [Finset.image_insert]
    rw [← h2]
  · intro m1 hm1 m2 hm2 hids
    rcases Finset.mem_insert.mp hm1 with rfl | hm1' <;>
      rcases Finset.mem_insert.mp hm2 with rfl | hm2'
    · rfl
    · exfalso
      apply hnew
      rw [h2, hids]
      exact Finset.mem_image_of_mem Message.ids hm2'
    · exfalso
      apply hnew
      rw [h2, ← hids]
      exact Finset.mem_image_of_mem Message.ids hm1'
    · exact h3 m1 hm1' m2 hm2' hids

theorem StateInv_reachable {id : ℕ} {procs : List Address} {nr : ℕ}
    {st : Lieutenant} (h : Reachable id procs nr st) : StateInv st := by
  induction h with
  | init =>
    exact ⟨fun m hm => absurd hm (by simp [initState]), by simp [initState],
      fun m1 hm1 => absurd hm1 (by simp [initState]), fun _ => rfl⟩
  | msg _ hstep ih =>
    rcases onMessage_continue_cases hstep with rfl | ⟨msg, _, hval, hr0, hnew, rfl⟩ | ⟨st₀, rfl⟩
    · exact ih
    · exact StateInv_accept ih hval hr0 hnew
    · exact StateInv_advanced st₀
  | timeout _ hstep ih =>
    rcases timeout_continue_cases hstep with rfl | ⟨st₀, rfl⟩
    · exact ih
    · exact StateInv_advanced st₀

/-- **C5**: at every point between callbacks of a Lieutenant's run, every
element of `msgs_this_round_` has `round` equal to `round_`,
`|ids_this_round_| = |msgs_this_round_|` (the paths are in bijection with
the retained messages), and at round 0 `|msgs_this_round_| ≤ 1`. -/
theorem C5_round_state (id : ℕ) (procs : List Address) (nr : ℕ)
    (st : Lieutenant) (h : Reachable id procs nr st) :
    (∀ m ∈ st.msgs_this_round_, m.round = st.round_) ∧
    st.ids_this_round_.card = st.msgs_this_round_.card ∧
    (st.round_ = 0 → st.msgs_this_round_.card ≤ 1) := by
  obtain ⟨h1, h2, h3, h4⟩ := StateInv_reachable h
  refine ⟨h1, ?_, fun h0 => by simp [h4 h0]⟩
  rw [h2]
  exact Finset.card_image_of_injOn
    (fun m1 hm1 m2 hm2 hi =>
      h3 m1 (Finset.mem_coe.mp hm1) m2 (Finset.mem_coe.mp hm2) hi)

/-- Witness for C5 at the initial state of a concrete Lieutenant. -/
theorem C5_round_state_witness :
    (initState 1 [] 2).ids_this_round_.card =
      (initState 1 [] 2).msgs_this_round_.card :=
  (C5_round_state 1 [] 2 (initState 1 [] 2) Reachable.init).2.1

/-! ## Claim C1: agreement — list and validator helpers -/

theorem getLast_eq_getLastD_zero {l : List ℕ} (h : l ≠ []) :
    l.getLast h = l.getLastD 0 := by
  cases l with
  | nil => exact absurd rfl h
  | cons a t => rw [List.getLast_eq_getLastD, List.getLastD_cons]

theorem getLastD_mem {l : List ℕ} (h : l ≠ []) : l.getLastD 0 ∈ l := by
  rw [← getLast_eq_getLastD_zero h]
  exact List.getLast_mem h

theorem headI_append_left {q : List ℕ} (l : List ℕ) (h : q ≠ []) :
    (q ++ l).headI = q.headI := by
  cases q with
  | nil => exact absurd rfl h
  | cons a t => rfl

theorem headI_mem {l : List ℕ} (h : l ≠ []) : l.headI ∈ l := by
  cases l with
  | nil => exact absurd rfl h
  | cons a t => exact List.mem_cons_self a t

theorem nodup_append_singleton {q : List ℕ} {j : ℕ} :
    (q ++ [j]).Nodup ↔ q.Nodup ∧ j ∉ q := by
  rw [List.nodup_append]
  constructor
  · rintro ⟨h1, _, h3⟩
    exact ⟨h1, fun hj => h3 hj (List.mem_singleton_self j)⟩
  · rintro ⟨h1, h2⟩
    exact ⟨h1, List.nodup_singleton j,
      fun a ha hb => h2 ((List.mem_singleton.mp hb) ▸ ha)⟩

theorem getD_one_append {q : List ℕ} (j x y : ℕ) (h2 : 2 ≤ q.length) :
    (q ++ [j]).getD 1 x = q.getD 1 y := by
  cases q with
  | nil => simp at h2
  | cons a t =>
    cases t with
    | nil => simp at h2
    | cons b u => rfl

theorem singleton_path {p : List ℕ} (hlen : p.length = 1) (hhead : p.headI = 0) :
    p = [0] := by
  cases p with
  | nil => simp at hlen
  | cons a t =>
    cases t with
    | nil => rw [show a = 0 from hhead]
    | cons b u => simp at hlen

/-- A nonempty-nodup list of length at least two with head 0 cannot also
end in 0. -/
theorem head_ne_last {l : List ℕ} (hn : l.Nodup) (hh : l.headI = 0)
    (hl : l.getLastD 0 = 0) (h2 : 2 ≤ l.length) : False := by
  cases l with
  | nil => simp at h2
  | cons a t =>
    cases t with
    | nil => simp at h2
    | cons b u =>
      have ha : a = 0 := hh
      have hmem : (a :: b :: u).getLastD 0 ∈ b :: u := by
        rw [← getLast_eq_getLastD_zero (by simp : (a :: b :: u) ≠ [])]
        rw [List.getLast_cons (by simp : (b :: u) ≠ [])]
        exact List.getLast_mem _
      rw [hl] at hmem
      rcases List.nodup_cons.mp hn with ⟨hnot, _⟩
      exact hnot (ha ▸ hmem)

/-- Distinct hostnames identify processes. -/
theorem hostname_inj (run : SyncRun) (hd : run.distinctHosts) {a b : ℕ}
    (ha : a < run.n) (hb : b < run.n)
    (h : (run.processes.getD a ⟨"", 0⟩).hostname =
      (run.processes.getD b ⟨"", 0⟩).hostname) : a = b := by
  have hlen : (run.processes.map Address.hostname).length = run.processes.length :=
    List.length_map _ _
  have hga : (run.processes.map Address.hostname).getD a "" =
      (run.processes.getD a ⟨"", 0⟩).hostname := by
    rw [List.getD_eq_getElem _ _ (by rw [hlen]; exact ha),
      List.getD_eq_getElem _ _ ha, List.getElem_map]
  have hgb : (run.processes.map Address.hostname).getD b "" =
      (run.processes.getD b ⟨"", 0⟩).hostname := by
    rw [List.getD_eq_getElem _ _ (by rw [hlen]; exact hb),
      List.getD_eq_getElem _ _ hb, List.getElem_map]
  have h' : (run.processes.map Address.hostname).getD a "" =
      (run.processes.map Address.hostname).getD b "" := by
    rw [hga, hgb, h]
  rw [List.getD_eq_getElem _ _ (by rw [hlen]; exact ha),
    List.getD_eq_getElem _ _ (by rw [hlen]; exact hb)] at h'
  have hinj := List.nodup_iff_injective_get.mp hd
  have hfa : (run.processes.map Address.hostname).get ⟨a, by rw [hlen]; exact ha⟩ =
      (run.processes.map Address.hostname).get ⟨b, by rw [hlen]; exact hb⟩ := by
    simpa [List.get_eq_getElem] using h'
  exact congrArg Fin.val (hinj hfa)

/-- Under distinct hostnames and correct Lieutenants, every Byzantine
delivery of a round `k + 1` fails the validator: its authentic sender can
only be the Commander, and a valid relay path of length `≥ 2` cannot end
at the Commander. -/
theorem byz_filtered (run : SyncRun) (hd : run.distinctHosts) (hb : run.byzWF)
    (hL : ∀ j, 0 < j → j < run.n → run.correct j = true)
    {k i : ℕ} {sm : ℕ × Message} (hsm : sm ∈ run.byz (k + 1) i) :
    ValidMessage (run.lstate i (k + 1)) sm.2 (run.addrOf sm.1) = false := by
  obtain ⟨hs, hbad⟩ := hb (k + 1) i sm hsm
  cases hv : ValidMessage (run.lstate i (k + 1)) sm.2 (run.addrOf sm.1) with
  | false => rfl
  | true =>
    exfalso
    obtain ⟨hrnd, hlen, hhead, hbound, _, hnodup, hhost⟩ :=
      (ValidMessage_iff _ _ _).mp hv
    have hrnd' : sm.2.round = k + 1 := hrnd
    have hs0 : sm.1 = 0 := by
      by_contra hs0
      exact absurd (hL sm.1 (Nat.pos_of_ne_zero hs0) hs) (by simp [hbad])
    have hne : sm.2.ids ≠ [] := by
      intro hnil
      rw [hnil] at hlen
      simp at hlen
    have hlast_lt : sm.2.ids.getLastD 0 < run.n :=
      hbound _ (getLastD_mem hne)
    have haddr : (run.addrOf sm.1).hostname =
        (run.processes.getD 0 ⟨"", 0⟩).hostname := by
      rw [hs0]
      rfl
    have heq : (run.processes.getD (sm.2.ids.getLastD 0) ⟨"", 0⟩).hostname =
        (run.processes.getD 0 ⟨"", 0⟩).hostname := by
      rw [← haddr]
      exact hhost
    have hn0 : 0 < run.n := lt_of_le_of_lt (Nat.zero_le _) hs
    have hlast0 : sm.2.ids.getLastD 0 = 0 :=
      hostname_inj run hd hlast_lt hn0 heq
    exact head_ne_last hnodup hhead hlast0 (by omega)

/-- In a synchronous run whose Lieutenants are all correct, the messages a
correct Lieutenant accepts in round `k` are exactly the round-`k` messages
along valid relay paths, carrying the order the Commander gave the path's
first relayer (`co i` itself for the direct path `[0]`). -/
theorem mem_acc (run : SyncRun) (hd : run.distinctHosts) (hb : run.byzWF)
    (hL : ∀ j, 0 < j → j < run.n → run.correct j = true) :
    ∀ k i, 0 < i → i < run.n → ∀ msg : Message,
      (msg ∈ run.acc k i ↔
        (msg.round = k ∧ isValidPath run.n k i msg.ids ∧
         msg.order = run.co (msg.ids.getD 1 i))) := by
  intro k
  induction k with
  | zero =>
    intro i hi0 hin msg
    simp only [SyncRun.acc, Finset.mem_filter, Finset.mem_singleton]
    constructor
    · rintro ⟨rfl, hv⟩
      refine ⟨rfl, ⟨rfl, rfl, List.nodup_singleton 0, ?_, ?_⟩, rfl⟩
      · intro x hx
        rw [List.mem_singleton.mp hx]
        exact lt_of_le_of_lt (Nat.zero_le i) hin
      · intro hmem
        have : i = 0 := List.mem_singleton.mp hmem
        omega
    · rintro ⟨hr, ⟨hlen, hhead, hnodup, hbound, hnotmem⟩, hord⟩
      have hids : msg.ids = [0] := singleton_path (by omega) hhead
      have hmsg : msg = ⟨0, run.co i, [0]⟩ := by
        obtain ⟨mr, mo, mp⟩ := msg
        simp only [Message.mk.injEq]
        simp only at hr hord hids
        refine ⟨hr, ?_, hids⟩
        rw [hord, hids]
        rfl
      refine ⟨hmsg, ?_⟩
      rw [hmsg, ValidMessage_iff]
      refine ⟨rfl, rfl, rfl, ?_, ?_, List.nodup_singleton 0, rfl⟩
      · intro x hx
        rw [List.mem_singleton.mp hx]
        exact lt_of_le_of_lt (Nat.zero_le i) hin
      · intro x hx heq
        have hx0 : x = 0 := List.mem_singleton.mp hx
        have hxi : x = i := heq
        omega
  | succ k ih =>
    intro i hi0 hin msg
    simp only [SyncRun.acc, Finset.mem_image, Finset.mem_filter, Finset.mem_union]
    constructor
    · rintro ⟨sm, ⟨hpool | hbyz, hv⟩, rfl⟩
      · simp only [SyncRun.relayPool, Finset.mem_biUnion, Finset.mem_filter,
          Finset.mem_range, Finset.mem_image] at hpool
        obtain ⟨j, ⟨hjn, hjc, hj0⟩, m0, ⟨hm0, hm0i⟩, rfl⟩ := hpool
        obtain ⟨hm0r, ⟨hm0len, hm0head, hm0nodup, hm0bound, hm0notmemj⟩, hm0ord⟩ :=
          (ih j (Nat.pos_of_ne_zero hj0) hjn m0).mp hm0
        have hqne : m0.ids ≠ [] := by
          intro h
          rw [h] at hm0len
          simp at hm0len
        refine ⟨rfl, ⟨?_, ?_, ?_, ?_, ?_⟩, ?_⟩
        · simp only [List.length_append, List.length_singleton, hm0len]
        · rw [headI_append_left _ hqne]
          exact hm0head
        · exact nodup_append_singleton.mpr ⟨hm0nodup, hm0notmemj⟩
        · intro x hx
          rcases List.mem_append.mp hx with hx | hx
          · exact hm0bound x hx
          · rw [List.mem_singleton.mp hx]
            exact hjn
        · exact hm0i
        · rw [hm0ord]
          congr 1
          rcases Nat.lt_or_ge m0.ids.length 2 with h2 | h2
          · have h1 : m0.ids = [0] := singleton_path (by omega) hm0head
            rw [h1]
            rfl
          · rw [getD_one_append j i j h2]
      · rw [byz_filtered run hd hb hL hbyz] at hv
        exact absurd hv (by simp)
    · rintro ⟨hr, ⟨hlen, hhead, hnodup, hbound, hnotmem⟩, hord⟩
      have hpne : msg.ids ≠ [] := by
        intro h
        rw [h] at hlen
        simp at hlen
      set q := msg.ids.dropLast with hq
      set j := msg.ids.getLastD 0 with hj
      have hsplit : q ++ [j] = msg.ids := by
        rw [hq, hj, ← getLast_eq_getLastD_zero hpne]
        exact List.dropLast_append_getLast hpne
      have hqlen : q.length = k + 1 := by
        rw [hq, List.length_dropLast, hlen]
        omega
      have hqne : q ≠ [] := by
        intro h
        rw [h] at hqlen
        simp at hqlen
      have hqhead : q.headI = 0 := by
        rw [← headI_append_left [j] hqne, hsplit]
        exact hhead
      have hnd := nodup_append_singleton.mp (by rw [hsplit]; exact hnodup)
      have hjmem : j ∈ msg.ids := by
        rw [hj]
        exact getLastD_mem hpne
      have hjn : j < run.n := hbound j hjmem
      have hj0 : j ≠ 0 := by
        intro h0
        apply hnd.2
        rw [h0, ← hqhead]
        exact headI_mem hqne
      have hbq : ∀ x ∈ q, x < run.n := by
        intro x hx
        refine hbound x ?_
        rw [← hsplit]
        exact List.mem_append.mpr (Or.inl hx)
      have hm0mem : (⟨k, run.co (q.getD 1 j), q⟩ : Message) ∈ run.acc k j :=
        (ih j (Nat.pos_of_ne_zero hj0) hjn _).mpr
          ⟨rfl, ⟨hqlen, hqhead, hnd.1, hbq, hnd.2⟩, rfl⟩
      have hordq : run.co (q.getD 1 j) = msg.order := by
        rw [hord]
        congr 1
        rw [← hsplit]
        rcases Nat.lt_or_ge q.length 2 with h2 | h2
        · have h1 : q = [0] := singleton_path (by omega) hqhead
          rw [h1]
          rfl
        · rw [getD_one_append j i j h2]
      refine ⟨(j, ⟨k + 1, run.co (q.getD 1 j), q ++ [j]⟩), ⟨Or.inl ?_, ?_⟩, ?_⟩
      · simp only [SyncRun.relayPool, Finset.mem_biUnion, Finset.mem_filter,
          Finset.mem_range, Finset.mem_image]
        refine ⟨j, ⟨hjn, hL j (Nat.pos_of_ne_zero hj0) hjn, hj0⟩,
          ⟨k, run.co (q.getD 1 j), q⟩, ⟨hm0mem, ?_⟩, rfl⟩
        show i ∉ q ++ [j]
        rw [hsplit]
        exact hnotmem
      · rw [ValidMessage_iff]
        refine ⟨rfl, by simp [hqlen], ?_, ?_, ?_, ?_, ?_⟩
        · rw [headI_append_left _ hqne]
          exact hqhead
        · intro x hx
          rcases List.mem_append.mp hx with hx | hx
          · exact hbq x hx
          · rw [List.mem_singleton.mp hx]
            exact hjn
        · intro x hx heq
          have hxi : x = i := heq
          apply hnotmem
          rw [← hsplit, ← hxi]
          exact hx
        · exact nodup_append_singleton.mpr ⟨hnd.1, hnd.2⟩
        · rw [List.getLastD_concat]
          rfl
      · show (⟨k + 1, run.co (q.getD 1 j), q ++ [j]⟩ : Message) = msg
        rw [hordq, hsplit, ← hr]

/-- The orders a correct Lieutenant of an all-correct-Lieutenant run sees
across the whole run: one per valid path of some round `≤ m`. -/
theorem mem_ordersSeen (run : SyncRun) (hd : run.distinctHosts) (hb : run.byzWF)
    (hL : ∀ j, 0 < j → j < run.n → run.correct j = true)
    {i : ℕ} (hi0 : 0 < i) (hin : i < run.n) (o : ℕ) :
    o ∈ run.ordersSeen i ↔
      ∃ k, k ≤ run.m ∧ ∃ p : List ℕ,
        isValidPath run.n k i p ∧ o = run.co (p.getD 1 i) := by
  unfold SyncRun.ordersSeen
  simp only [Finset.mem_biUnion, Finset.mem_range, Finset.mem_image]
  constructor
  · rintro ⟨k, hk, m, hm, rfl⟩
    obtain ⟨_, hvp, hord⟩ := (mem_acc run hd hb hL k i hi0 hin m).mp hm
    exact ⟨k, by omega, m.ids, hvp, hord⟩
  · rintro ⟨k, hk, p, hvp, rfl⟩
    exact ⟨k, by omega, ⟨k, run.co (p.getD 1 i), p⟩,
      (mem_acc run hd hb hL k i hi0 hin _).mpr ⟨rfl, hvp, rfl⟩, rfl⟩

/-- With at least two rounds and all Lieutenants correct, every correct
Lieutenant ends with the same `orders_seen_`: the Commander's round-0
orders to all Lieutenants. -/
theorem ordersSeen_char (run : SyncRun) (hd : run.distinctHosts) (hb : run.byzWF)
    (hL : ∀ j, 0 < j → j < run.n → run.correct j = true) (hm1 : 1 ≤ run.m)
    {i : ℕ} (hi0 : 0 < i) (hin : i < run.n) :
    run.ordersSeen i =
      ((Finset.range run.n).filter (fun j => 0 < j)).image run.co := by
  ext o
  rw [mem_ordersSeen run hd hb hL hi0 hin]
  simp only [Finset.mem_image, Finset.mem_filter, Finset.mem_range]
  constructor
  · rintro ⟨k, hk, p, ⟨hlen, hhead, hnodup, hbound, hnotmem⟩, rfl⟩
    rcases Nat.lt_or_ge p.length 2 with h2 | h2
    · have hp : p = [0] := singleton_path (by omega) hhead
      refine ⟨i, ⟨hin, hi0⟩, ?_⟩
      rw [hp]
      rfl
    · have hx : p.getD 1 i ∈ p := by
        rw [List.getD_eq_getElem _ _ (by omega)]
        exact List.getElem_mem _
      refine ⟨p.getD 1 i, ⟨hbound _ hx, ?_⟩, rfl⟩
      cases p with
      | nil => simp at h2
      | cons a t =>
        cases t with
        | nil => simp at h2
        | cons b u =>
          have ha : a = 0 := hhead
          have hb0 : b ≠ 0 := by
            intro h0
            rcases List.nodup_cons.mp hnodup with ⟨hna, _⟩
            exact hna (by rw [ha, ← h0]; exact List.mem_cons_self b u)
          show 0 < b
          omega
  · rintro ⟨j, ⟨hjn, hj0⟩, rfl⟩
    by_cases hji : j = i
    · subst hji
      refine ⟨0, by omega, [0], ⟨rfl, rfl, List.nodup_singleton 0, ?_, ?_⟩, rfl⟩
      · intro x hx
        rw [List.mem_singleton.mp hx]
        omega
      · intro hmem
        have := List.mem_singleton.mp hmem
        omega
    · refine ⟨1, hm1, [0, j], ⟨rfl, rfl, ?_, ?_, ?_⟩, rfl⟩
      · refine List.nodup_cons.mpr ⟨?_, List.nodup_singleton j⟩
        intro hmem
        have := List.mem_singleton.mp hmem
        omega
      · intro x hx
        rcases List.mem_cons.mp hx with rfl | hx
        · omega
        · rw [List.mem_singleton.mp hx]
          exact hjn
      · intro hmem
        rcases List.mem_cons.mp hmem with h | h
        · omega
        · exact hji (List.mem_singleton.mp h).symm

/-- With a single round (`m = 0`) a Lieutenant sees only the Commander's
direct order. -/
theorem ordersSeen_m0 (run : SyncRun) (hd : run.distinctHosts) (hb : run.byzWF)
    (hL : ∀ j, 0 < j → j < run.n → run.correct j = true) (hm0 : run.m = 0)
    {i : ℕ} (hi0 : 0 < i) (hin : i < run.n) :
    run.ordersSeen i = {run.co i} := by
  ext o
  rw [mem_ordersSeen run hd hb hL hi0 hin]
  simp only [Finset.mem_singleton]
  constructor
  · rintro ⟨k, hk, p, ⟨hlen, hhead, _, _, _⟩, rfl⟩
    have hk0 : k = 0 := by omega
    subst hk0
    have hp : p = [0] := singleton_path (by omega) hhead
    rw [hp]
    rfl
  · rintro rfl
    refine ⟨0, by omega, [0], ⟨rfl, rfl, List.nodup_singleton 0, ?_, ?_⟩, rfl⟩
    · intro x hx
      rw [List.mem_singleton.mp hx]
      omega
    · intro hmem
      have := List.mem_singleton.mp hmem
      omega

theorem DecideOrder_congr {st st' : Lieutenant}
    (h : st.orders_seen_ = st'.orders_seen_) : DecideOrder st = DecideOrder st' := by
  unfold DecideOrder
  rw [h]

theorem DecideOrder_pure {st : Lieutenant} {c : ℕ} (h : st.orders_seen_ = {c})
    (hc : c = ATTACK ∨ c = RETREAT) : DecideOrder st = c := by
  rcases hc with rfl | rfl
  · exact (DecideOrder_eq_ATTACK_iff st).mpr h
  · unfold DecideOrder
    rw [h, if_neg]
    rintro ⟨-, hmem⟩
    exact absurd (Finset.mem_singleton.mp hmem) (by decide)

/-- **C1**, counterexample: in the synchronous run `badRun` — `n = 4 ≥
3m + 1`, `m = 1`, `m + 1 = 2` rounds, a *correct* Commander proposing
ATTACK, and exactly one Byzantine process (Lieutenant 3, which relays
RETREAT to Lieutenant 1 and ATTACK to Lieutenant 2 in the last round) —
the correct Lieutenants 1 and 2 return different Orders, and Lieutenant 1
disagrees with the correct Commander's proposal.  The claim as stated is
false on the code's decision rule. -/
theorem C1_counterexample :
    badRun.distinctHosts ∧ badRun.byzWF ∧ badRun.commanderWF ∧
    3 * badRun.m + 1 ≤ badRun.n ∧ badRun.byzCount ≤ badRun.m ∧
    badRun.correct 0 = true ∧ badRun.correct 1 = true ∧ badRun.correct 2 = true ∧
    badRun.isLieutenant 1 ∧ badRun.isLieutenant 2 ∧
    (∀ i, badRun.isLieutenant i → badRun.co i = ATTACK) ∧
    badRun.decision 1 = RETREAT ∧ badRun.decision 2 = ATTACK := by
  refine ⟨by decide, ?_, fun _ i j => rfl, by decide, by decide, by decide,
    by decide, by decide, by decide, by decide, fun i _ => rfl, by decide, by decide⟩
  intro k i sm hsm
  simp only [badRun, badByz] at hsm
  split_ifs at hsm with h1 h2
  · rw [Finset.mem_singleton.mp hsm]
    exact ⟨by decide, by decide⟩
  · rw [Finset.mem_singleton.mp hsm]
    exact ⟨by decide, by decide⟩
  · exact absurd hsm (by simp)

/-- **C1 (amended)**: in the synchronous fault-free-network model, for
`n ≥ 3m + 1` processes running `m + 1` rounds with at most `m` faulty
processes, *provided every Lieutenant is correct* (faults can occur only
at the Commander), all correct Lieutenants' `Decide()` return the same
Order, and if the Commander is also correct that Order equals the
Commander's proposed order, which `Commander::Decide()` itself returns. -/
theorem C1_agreement_correct_lieutenants (run : SyncRun)
    (hd : run.distinctHosts) (hb : run.byzWF) (hc : run.commanderWF)
    (hL : ∀ j, 0 < j → j < run.n → run.correct j = true)
    (hn : 3 * run.m + 1 ≤ run.n) (hcount : run.byzCount ≤ run.m) :
    (∀ i j, run.isLieutenant i → run.isLieutenant j →
      run.decision i = run.decision j) ∧
    (run.correct 0 = true → ∀ cmd : Commander,
      (∀ i, run.isLieutenant i → run.co i = Commander.Decide cmd) →
      (Commander.Decide cmd = ATTACK ∨ Commander.Decide cmd = RETREAT) →
      ∀ i, run.isLieutenant i → run.decision i = Commander.Decide cmd) := by
  have hfs : ∀ i, (run.finalState i).orders_seen_ = run.ordersSeen i := fun _ => rfl
  rcases Nat.eq_zero_or_pos run.m with hm0 | hm1
  · have hall : ∀ p, p < run.n → run.correct p = true := by
      intro p hp
      by_contra hneg
      have hmem : p ∈ (Finset.range run.n).filter (fun p => run.correct p = false) := by
        refine Finset.mem_filter.mpr ⟨Finset.mem_range.mpr hp, ?_⟩
        cases hcp : run.correct p
        · rfl
        · exact absurd hcp hneg
      have hpos : 0 < run.byzCount := Finset.card_pos.mpr ⟨p, hmem⟩
      omega
    have h0c : run.correct 0 = true := hall 0 (by omega)
    have hconst := hc h0c
    constructor
    · intro i j hi hj
      unfold SyncRun.decision
      apply DecideOrder_congr
      rw [hfs, hfs, ordersSeen_m0 run hd hb hL hm0 hi.1 hi.2,
        ordersSeen_m0 run hd hb hL hm0 hj.1 hj.2, hconst i j]
    · intro _ cmd hco hcd i hi
      unfold SyncRun.decision
      refine DecideOrder_pure ?_ hcd
      rw [hfs, ordersSeen_m0 run hd hb hL hm0 hi.1 hi.2, hco i hi]
  · constructor
    · intro i j hi hj
      unfold SyncRun.decision
      apply DecideOrder_congr
      rw [hfs, hfs, ordersSeen_char run hd hb hL hm1 hi.1 hi.2,
        ordersSeen_char run hd hb hL hm1 hj.1 hj.2]
    · intro _ cmd hco hcd i hi
      unfold SyncRun.decision
      refine DecideOrder_pure ?_ hcd
      rw [hfs, ordersSeen_char run hd hb hL hm1 hi.1 hi.2]
      ext o
      simp only [Finset.mem_image, Finset.mem_filter, Finset.mem_range,
        Finset.mem_singleton]
      constructor
      · rintro ⟨j, ⟨hjn, hj0⟩, rfl⟩
        exact hco j ⟨hj0, hjn⟩
      · rintro rfl
        exact ⟨i, ⟨hi.2, hi.1⟩, hco i hi⟩

/-- Witness for C1 (amended): the fault-free 4-process scenario S1 — a
correct Commander proposing ATTACK with all Lieutenants correct makes
Lieutenants 1 and 2 agree, and Lieutenant 1 returns the Commander's
proposal. -/
theorem C1_agreement_correct_lieutenants_witness :
    goodRun.decision 1 = goodRun.decision 2 ∧
    goodRun.decision 1 = Commander.Decide ⟨0, badTable, 0, ATTACK⟩ :=
  ⟨(C1_agreement_correct_lieutenants goodRun (by decide)
      (fun k i sm hsm => absurd hsm (Finset.not_mem_empty sm))
      (fun _ i j => rfl) (fun j _ _ => rfl)
      (by decide) (by decide)).1 1 2 (by decide) (by decide),
   (C1_agreement_correct_lieutenants goodRun (by decide)
      (fun k i sm hsm => absurd hsm (Finset.not_mem_empty sm))
      (fun _ i j => rfl) (fun j _ _ => rfl)
      (by decide) (by decide)).2 (by decide) ⟨0, badTable, 0, ATTACK⟩
      (fun i _ => rfl) (Or.inl rfl) 1 (by decide)⟩

end Generals
